import Mathlib

/-!
Verification of the reactive dependency-tracking core of the repository
(`packages/reactivity`: `effect.ts`, `dep.ts`, `baseHandlers.ts`, `computed.ts`,
and `packages/runtime-core/src/scheduler.ts`).

The TypeScript source is shallowly embedded: effect ids and dep ids are natural
numbers, the per-(object,key) subscriber sets (`Dep = Set<ReactiveEffect> &
TrackedMarkers`) become `DepData` values holding an (insertion-ordered,
duplicate-free) member list and the two bitmask fields `w`/`n`, the global
stores `targetMap`-reachable deps and the effects themselves become total
functions from ids, and JS 31-bit bitmask arithmetic becomes `Nat` bitwise
arithmetic (the values involved, `trackOpBit = 1 <<< depth` with depth capped at
30, never overflow a SMI, so no modular reduction is needed).
-/

/-! ### Derived value cache (`computed.ts`, class `ComputedRefImpl`) -/

/-- State of a `ComputedRefImpl`, with instrumentation counters: `runs` counts
executions of the user getter (`self.effect.run()`), `notifies` counts calls of
`triggerRefValue` (notification of the computed ref's own dependents). -/
structure CState where
  _dirty : Bool
  _cacheable : Bool
  _value : Nat
  runs : Nat
  notifies : Nat
deriving Repr, DecidableEq

/-- `get value()` of `ComputedRefImpl` (computed.ts lines 61-73): after
`trackRefValue` (no state change modelled here), if `self._dirty ||
!self._cacheable` then clear `_dirty` and run the inner effect (the getter),
caching its result; otherwise return the cached `_value` unchanged.  The getter
is modelled as a pure value `g` (its current result). -/
def readValue (g : Nat) (c : CState) : CState :=
  if c._dirty || !c._cacheable then
    { c with _dirty := false, _value := g, runs := c.runs + 1 }
  else c

/-- The scheduler of the inner `ReactiveEffect` of `ComputedRefImpl`
(computed.ts lines 49-55): on a dependency change, if `!this._dirty` then set
`_dirty := true` and call `triggerRefValue this`; it never runs the getter. -/
def invalidate (c : CState) : CState :=
  if !c._dirty then { c with _dirty := true, notifies := c.notifies + 1 } else c

/-! ### `trigger`, the `key === 'length' && isArray(target)` branch
(`effect.ts` lines 336-343 and 394-407) -/

/-- A property key as it occurs in a `depsMap` for a tracked array,
represented by how the JS `>=` comparison of effect.ts line 340 coerces it:
the reserved `'length'` string; an integer index key (`isIntegerKey`-style
numeric string `'0'`, `'1'`, …); any other string whose `Number` coercion is
the finite number `q` (such as `'3.5'`, `'-1'`, `'1e2'`, `''`); a string
coercing to `NaN`; a user symbol; or the two reserved iterate symbols.  The
constructor choice encodes the coercion class, so the comparison semantics
below are faithful by construction. -/
inductive TKey where
  | length
  | idx (n : Nat)
  | strNum (q : ℚ)
  | strNaN (s : String)
  | sym (i : Nat)
  | iter
  | mapIter
deriving Repr, DecidableEq

/-- One evaluation of `key === 'length' || key >= (newValue as number)`
(effect.ts line 340).  In JS, `>=` on a string key coerces it with `Number`:
numeric strings compare by value, `NaN` coercions are never `>=`; but `>=` on
a *symbol* key throws a `TypeError` (there is no `isSymbol` guard in this
code), modelled as `none`. -/
def lengthKeyTest : TKey → Nat → Option Bool
  | .length, _ => some true
  | .idx n, newLen => some (decide (newLen ≤ n))
  | .strNum q, newLen => some (decide ((newLen : ℚ) ≤ q))
  | .strNaN _, _ => some false
  | .sym _, _ => none
  | .iter, _ => none
  | .mapIter, _ => none

/-- One iteration of the `depsMap.forEach` of effect.ts lines 339-343 over the
accumulated list of selected deps: a thrown `TypeError` (`none`) aborts the
whole loop and propagates. -/
def lengthStep (newLen : Nat) (acc : Option (List (List Nat))) (p : TKey × List Nat) :
    Option (List (List Nat)) :=
  match acc with
  | none => none
  | some l =>
    match lengthKeyTest p.1 newLen with
    | none => none
    | some true => some (l ++ [p.2])
    | some false => some l

/-- The effects `trigger` hands to `triggerEffects` for a write to `length` on
a tracked array (effect.ts lines 336-343 and 394-407): iterate the `depsMap`
collecting every dep whose key passes the line-340 test, then concatenate the
members of the collected deps.  `none` means the `forEach` threw (symbol key):
the exception propagates out of `trigger` before `triggerEffects` is reached,
so nothing at all is notified.  `dm` is the `depsMap` as an association list
in `Map` iteration order, each entry carrying the dep's member effect ids. -/
def triggerLengthEffects (dm : List (TKey × List Nat)) (newLen : Nat) : Option (List Nat) :=
  (dm.foldl (lengthStep newLen) (some [])).map List.flatten

/-- The `depsMap` of the spec's length-shrink scenario: a tracked four-element
array where computation `1` read index `0` and computation `2` read index `3`. -/
def shrinkScenarioMap : List (TKey × List Nat) :=
  [(TKey.idx 0, [1]), (TKey.idx 3, [2])]

/-- A `depsMap` holding a user-symbol-keyed entry (reachable by reading
`arr[sym]` inside an effect: the get trap tracks any non-built-in symbol)
alongside a `length` entry subscribed to by effect `1`. -/
def symbolScenarioMap : List (TKey × List Nat) :=
  [(TKey.sym 0, [9]), (TKey.length, [1])]

/-! ### Dependency graph and effect runtime state
(`effect.ts` and `dep.ts`) -/

/-- A `Dep` (dep.ts lines 5-29): a `Set<ReactiveEffect>` plus the two tracked
markers.  `members` is the set in insertion order (a JS `Set` holds no
duplicates), `w` is the `wasTracked` bitmask, `n` the `newTracked` bitmask. -/
structure DepData where
  members : List Nat
  w : Nat
  n : Nat
deriving Repr, DecidableEq

/-- The per-effect state of a `ReactiveEffect` (effect.ts lines 59-88):
its back-reference list `deps` (ids of the Deps it is a member of), the
`active` flag, the `allowRecurse` flag, the `parent` pointer, and whether an
`onStop` callback is attached. -/
structure EffectData where
  deps : List Nat
  active : Bool
  allowRecurse : Bool
  parent : Option Nat
  onStop : Bool
deriving Repr, DecidableEq

/-- The reactive runtime's graph state: the store of all Deps and of all
effects, addressed by id. -/
structure RState where
  dep : Nat → DepData
  eff : Nat → EffectData

/-- `dep.add(effect)`: JS `Set.add` is a no-op when the element is present,
otherwise appends it. -/
def depAdd (dd : DepData) (e : Nat) : DepData :=
  if e ∈ dd.members then dd else { dd with members := dd.members ++ [e] }

/-- `dep.delete(effect)`: remove the effect from the member set. -/
def depDelete (dd : DepData) (e : Nat) : DepData :=
  { dd with members := dd.members.filter (fun f => f != e) }

/-- `wasTracked` (dep.ts line 32): `(dep.w & trackOpBit) > 0`. -/
def wasTracked (dd : DepData) (bit : Nat) : Bool :=
  (dd.w &&& bit) != 0

/-- `newTracked` (dep.ts line 35): `(dep.n & trackOpBit) > 0`. -/
def newTracked (dd : DepData) (bit : Nat) : Bool :=
  (dd.n &&& bit) != 0

/-- `x &= ~bit` on a JS bitmask: clearing the bits of `bit`, expressed on `Nat`
as `x ^^^ (x &&& bit)` (xor-ing away exactly the set bits shared with `bit`). -/
def clearBit (x bit : Nat) : Nat := x ^^^ (x &&& bit)

/-- `cleanupEffect` (effect.ts lines 164-177): delete the effect from every
dep in its `deps` back-reference list, then empty the list
(`deps.length = 0`). -/
def cleanupEffect (s : RState) (e : Nat) : RState :=
  { dep := fun d => if d ∈ (s.eff e).deps then depDelete (s.dep d) e else s.dep d,
    eff := fun f => if f = e then { s.eff f with deps := [] } else s.eff f }

/-- `ReactiveEffect.stop` (effect.ts lines 152-160): if `active`, run
`cleanupEffect`, invoke `onStop` when attached, and set `active := false`;
otherwise do nothing.  The returned `Bool` records whether the `onStop`
callback was invoked. -/
def stop (s : RState) (e : Nat) : RState × Bool :=
  if (s.eff e).active then
    let s' := cleanupEffect s e
    ({ s' with eff := fun f => if f = e then { s'.eff f with active := false } else s'.eff f },
     (s.eff e).onStop)
  else (s, false)

/-- `initDepMarkers` (dep.ts lines 39-46): `deps[i].w |= trackOpBit` for every
dep in the effect's back-reference list. -/
def initDepMarkers (s : RState) (e bit : Nat) : RState :=
  { s with dep := fun d =>
      if d ∈ (s.eff e).deps then { s.dep d with w := (s.dep d).w ||| bit }
      else s.dep d }

/-- Add the active effect to a dep and the dep to the effect's back-reference
list — the two simultaneous writes `dep.add(activeEffect)` /
`activeEffect.deps.push(dep)` of `trackEffects` (effect.ts lines 295-299). -/
def addBoth (s : RState) (d e : Nat) : RState :=
  { dep := fun i => if i = d then depAdd (s.dep i) e else s.dep i,
    eff := fun f => if f = e then { s.eff f with deps := (s.eff f).deps ++ [d] }
                    else s.eff f }

/-- `maxMarkerBits` (effect.ts line 34). -/
def maxMarkerBits : Nat := 30

/-- `trackEffects` (effect.ts lines 277-311) with `e` the active effect,
`bit = trackOpBit` and `depth = effectTrackDepth`.  Within the marker depth
cap: if the dep is not newly tracked, mark it newly tracked, and add the
effect/dep pair only if the dep was not already tracked this generation.
Beyond the cap (full cleanup mode): add the pair unless the dep already has
the effect. -/
def trackEffects (s : RState) (d e bit depth : Nat) : RState :=
  if depth ≤ maxMarkerBits then
    if newTracked (s.dep d) bit then s
    else
      let s1 : RState :=
        { s with dep := fun i =>
            if i = d then { s.dep i with n := (s.dep i).n ||| bit } else s.dep i }
      if wasTracked (s.dep d) bit then s1 else addBoth s1 d e
  else
    if e ∈ (s.dep d).members then s else addBoth s d e

/-- The staleness test of the `finalizeDepMarkers` loop (dep.ts line 58):
`wasTracked(dep) && !newTracked(dep)` — collected in a previous generation but
not re-collected in this one. -/
def staleB (dd : DepData) (bit : Nat) : Bool :=
  wasTracked dd bit && !(newTracked dd bit)

/-- What one iteration of the `finalizeDepMarkers` loop does to the visited
dep: delete the effect when stale, then clear both marker bits
(`dep.w &= ~trackOpBit; dep.n &= ~trackOpBit`). -/
def depFinal (dd : DepData) (e bit : Nat) : DepData :=
  let dd1 := if staleB dd bit then depDelete dd e else dd
  { dd1 with w := clearBit dd1.w bit, n := clearBit dd1.n bit }

/-- One iteration of the `finalizeDepMarkers` loop (dep.ts lines 49-67) over
accumulator `(dep store, compacted deps list)`: a stale dep has the effect
deleted from it and is dropped from the list; otherwise it is kept (shifted to
the front, `deps[ptr++]`).  Both marker bits are cleared for every visited
dep. -/
def finStep (e bit : Nat) (acc : (Nat → DepData) × List Nat) (d : Nat) :
    (Nat → DepData) × List Nat :=
  (fun i => if i = d then depFinal (acc.1 d) e bit else acc.1 i,
   if staleB (acc.1 d) bit then acc.2 else acc.2 ++ [d])

/-- `finalizeDepMarkers` (dep.ts lines 49-67): fold `finStep` over the
effect's deps list and store the compacted list back
(`deps.length = ptr`). -/
def finalizeDepMarkers (s : RState) (e bit : Nat) : RState :=
  let r := (s.eff e).deps.foldl (finStep e bit) (s.dep, [])
  { dep := r.1,
    eff := fun f => if f = e then { s.eff f with deps := r.2 } else s.eff f }

/-- The effects that `triggerEffects` (effect.ts lines 410-431) runs or
schedules from one dep, given the currently active effect: every member with
`effect !== activeEffect || effect.allowRecurse`. -/
def triggerRunList (s : RState) (d : Nat) (activeE : Option Nat) : List Nat :=
  (s.dep d).members.filter (fun f => decide (some f ≠ activeE) || (s.eff f).allowRecurse)

/-- The bidirectional-link invariant of the dependency graph: an effect is a
member of a dep iff that dep is in the effect's back-reference list, and no
back-reference list holds duplicates. -/
def biInv (s : RState) : Prop :=
  (∀ d f, f ∈ (s.dep d).members ↔ d ∈ (s.eff f).deps) ∧
  (∀ f, (s.eff f).deps.Nodup)

/-- The per-run marker invariant for marker-mode tracking: every dep already
in the effect's back-reference list carries the current generation bit in its
was-tracked or newly-tracked mask.  `initDepMarkers` establishes it at run
entry (all `w` bits set) and each `trackEffects` maintains it (a freshly
appended dep has just received its `n` bit). -/
def markedInv (s : RState) (e bit : Nat) : Prop :=
  ∀ d' ∈ (s.eff e).deps,
    wasTracked (s.dep d') bit = true ∨ newTracked (s.dep d') bit = true

/-! ### `ReactiveEffect.run` and `triggerEffects`: the self-recursion guard
(effect.ts lines 90-150 and 410-431) -/

/-- The body of an effect's user function `fn`, abstracted to what matters for
control flow: either it performs no trigger, or it writes a tracked value
whose dep is `d`, synchronously invoking `triggerEffects` on that dep.
(Tracking and the marker bits do not influence which effects execute, so this
interpreter omits them.) -/
inductive EffBody where
  | pure
  | triggerDep (d : Nat)
deriving Repr, DecidableEq

/-- A world for the run interpreter: the graph/effect state plus each
effect's function body. -/
structure World where
  rs : RState
  body : Nat → EffBody

/-- Interpreter for `ReactiveEffect.run` (effect.ts lines 90-150) together
with `triggerEffects` (lines 410-431), returning the list of effect ids whose
user function executes, in order.  `stack` is the chain `activeEffect,
activeEffect.parent, activeEffect.parent.parent, …`: `run` maintains the
parent pointers exactly as a stack (`this.parent = activeEffect; activeEffect
= this` on entry, both restored in the `finally` block).  An inactive effect
runs its `fn` directly without tracking (lines 92-94); an active effect
already on the parent chain returns without executing (lines 100-106);
otherwise the effect is pushed and its body executes: a trigger iterates the
dep's members and, per `triggerEffects`, runs each member `f` satisfying
`f !== activeEffect || f.allowRecurse` (line 418), the active effect at that
point being the running effect itself.  `fuel` bounds only the interpreter's
recursion; the theorems show the execution log is independent of it. -/
def runLog (w : World) : Nat → List Nat → Nat → List Nat
  | 0, _, _ => []
  | fuel + 1, stack, e =>
    if (w.rs.eff e).active = false then [e]
    else if e ∈ stack then []
    else
      e :: (match w.body e with
        | .pure => []
        | .triggerDep d =>
          (w.rs.dep d).members.foldl
            (fun acc f =>
              acc ++ (if f ≠ e ∨ (w.rs.eff f).allowRecurse then
                        runLog w fuel (e :: stack) f
                      else []))
            [])

/-- The self-trigger scenario: a single active effect `0`, without
`allowRecurse`, whose function writes its own tracked dependency (dep `0`,
whose only member is effect `0`). -/
def selfTriggerWorld : World :=
  ⟨⟨fun _ => ⟨[0], 0, 0⟩, fun _ => ⟨[0], true, false, none, false⟩⟩,
   fun _ => EffBody.triggerDep 0⟩

/-! ### One `run()` with its guaranteed-cleanup `finally` block
(effect.ts lines 107-149) -/

/-- The module-level runtime state around one `run()`: the active-effect chain
(`stack` lists `activeEffect` first, then its `parent` chain), the
`shouldTrack` flag, and `effectTrackDepth`; `trackOpBit` is always
`1 <<< effectTrackDepth`, modelled as `2 ^ depth`. -/
structure GState where
  stack : List Nat
  shouldTrack : Bool
  depth : Nat
  rs : RState

/-- Result classification of one `run()` call: the user function returned
normally, the user function threw (and the exception propagates after the
`finally` block), or the self-recursion guard returned early. -/
inductive RunOutcome where
  | normal
  | threw
  | skipped
deriving Repr, DecidableEq

/-- Clear the `parent` field of an effect (`this.parent = undefined`,
effect.ts line 148). -/
def clearParent (s : RState) (e : Nat) : RState :=
  { s with eff := fun f => if f = e then { s.eff f with parent := none } else s.eff f }

/-- Set the `parent` field of an effect (`this.parent = activeEffect`,
effect.ts line 111). -/
def setParent (s : RState) (e : Nat) (p : Option Nat) : RState :=
  { s with eff := fun f => if f = e then { s.eff f with parent := p } else s.eff f }

/-- The entry half of `run()` for an active, non-reentrant effect
(effect.ts lines 107-129): save the previous active effect as `parent`, make
this effect active, enable tracking, advance the generation
(`trackOpBit = 1 <<< ++effectTrackDepth`), and either set the was-tracked
markers (depth within `maxMarkerBits`) or fall back to a full cleanup. -/
def preRun (g : GState) (e : Nat) : GState :=
  let g1 : GState :=
    { stack := e :: g.stack, shouldTrack := true, depth := g.depth + 1,
      rs := setParent g.rs e g.stack.head? }
  if g1.depth ≤ maxMarkerBits then { g1 with rs := initDepMarkers g1.rs e (2 ^ g1.depth) }
  else { g1 with rs := cleanupEffect g1.rs e }

/-- One `run()` (effect.ts lines 90-150) with the user function abstracted as
a state transformer `fn` returning `true` when it throws.  An inactive effect
just runs `fn` (lines 92-94, no `try`/`finally` is entered); an effect already
on the parent chain returns unchanged (lines 100-106); otherwise `preRun`,
then `fn`, then — on *every* exit path, thrown or not — the `finally` block
(lines 132-149): finalize the dep markers when within the depth cap, retreat
the generation (`trackOpBit = 1 <<< --effectTrackDepth`), restore the previous
active effect (`activeEffect = this.parent`) and the saved `shouldTrack`, and
clear the `parent` reference. -/
def runWith (fn : GState → GState × Bool) (e : Nat) (g : GState) : GState × RunOutcome :=
  if (g.rs.eff e).active = false then
    let r := fn g
    (r.1, if r.2 then RunOutcome.threw else RunOutcome.normal)
  else if e ∈ g.stack then (g, RunOutcome.skipped)
  else
    let r := fn (preRun g e)
    let rs4 := if r.1.depth ≤ maxMarkerBits then finalizeDepMarkers r.1.rs e (2 ^ r.1.depth)
               else r.1.rs
    ({ stack := g.stack, shouldTrack := g.shouldTrack, depth := r.1.depth - 1,
       rs := clearParent rs4 e },
     if r.2 then RunOutcome.threw else RunOutcome.normal)

/-! ### Job scheduler (`scheduler.ts`) -/

/-- A `SchedulerJob`: the optional identity number `id`, the `active`
cancellation flag, and `tag`, standing for the closure's reference identity
(used by the `queue.includes` dedup). -/
structure SJob where
  id : Option Nat
  active : Bool
  tag : Nat
deriving Repr, DecidableEq, Inhabited

/-- `getId` (scheduler.ts lines 231-232) as an ordering key: a job with no id
is `Infinity`, i.e. `⊤`, sorting after every numbered job. -/
def getIdKey (j : SJob) : WithTop Nat :=
  match j.id with
  | some n => (n : WithTop Nat)
  | none => ⊤

/-- The ordering induced by the comparator `(a, b) => getId(a) - getId(b)` of
`queue.sort` (line 255); two missing ids compare equal (the JS sort spec maps
a `NaN` comparator result to `+0`). -/
def jobLe (a b : SJob) : Prop := getIdKey a ≤ getIdKey b

instance : DecidableRel jobLe :=
  fun a b => inferInstanceAs (Decidable (getIdKey a ≤ getIdKey b))

instance : IsTotal SJob jobLe :=
  ⟨fun a b => le_total (getIdKey a) (getIdKey b)⟩

instance : IsTrans SJob jobLe :=
  ⟨fun _ _ _ => le_trans⟩

/-- `queue.sort((a, b) => getId(a) - getId(b))` (scheduler.ts line 255): a
stable ascending sort by id.  JS `Array.prototype.sort` is stable, and a
stable sort by a consistent comparator is unique, so insertion sort is the
faithful model. -/
def sortJobs (q : List SJob) : List SJob := List.insertionSort jobLe q

/-- The main-queue pass of `flushJobs` (scheduler.ts lines 235-303): sort the
queue by id, then run the jobs left to right by cursor, skipping any job whose
`active` flag was cleared (`job && job.active !== false`, line 274).  Returns
the executed jobs in execution order. -/
def flushExec (q : List SJob) : List SJob :=
  (sortJobs q).filter (·.active)

/-- The comparison `middleJobId < id` of `findInsertionIndex` (line 83): a
missing middle id is `Infinity`, never `<`. -/
def ltOpt (o : Option Nat) (id : Nat) : Bool :=
  match o with
  | some m => decide (m < id)
  | none => false

/-- The binary-search loop of `findInsertionIndex` (scheduler.ts lines 80-85),
fuel-bounded (`stop - start` shrinks every iteration, so `q.length + 1` fuel
always suffices). -/
def fiiGo (q : List SJob) (id : Nat) : Nat → Nat → Nat → Nat
  | 0, start, _ => start
  | fuel + 1, start, stop =>
    if start < stop then
      let middle := (start + stop) / 2
      if ltOpt (q.getD middle default).id id then fiiGo q id fuel (middle + 1) stop
      else fiiGo q id fuel start middle
    else start

/-- `findInsertionIndex` (scheduler.ts lines 75-87) in the idle state
(`flushIndex = 0`): binary search over `[flushIndex + 1, queue.length)`. -/
def findInsertionIndex (q : List SJob) (id : Nat) : Nat :=
  fiiGo q id (q.length + 1) 1 q.length

/-- `queue.splice(i, 0, job)`: insert at position `i`, clamped to the length
as JS `splice` clamps. -/
def insertAt (i : Nat) (j : SJob) (q : List SJob) : List SJob :=
  q.take i ++ [j] ++ q.drop i

/-- `queueJob` (scheduler.ts lines 90-113) in the idle state (`isFlushing =
false`, `flushIndex = 0`, no `currentPreFlushParentJob`): dedupe by reference
identity over the whole queue (`queue.includes(job, flushIndex)`), then push
an id-less job at the back or splice an id-carrying job in at the
binary-search position. -/
def queueJob (q : List SJob) (j : SJob) : List SJob :=
  if (q.length == 0) || !(q.any (fun x => x.tag == j.tag)) then
    match j.id with
    | none => q ++ [j]
    | some id => insertAt (findInsertionIndex q id) j q
  else q

/-- A job with identity number `i`, distinct reference identity per number. -/
def mkJob (i : Nat) : SJob := ⟨some i, true, i⟩

/-! ### Property interception layer (`baseHandlers.ts`): `createSetter` and
the read-only handlers -/

/-- A JS primitive value as far as the setter's comparisons are concerned:
a (non-`NaN`) number, `NaN`, a string, a boolean, or `undefined`. -/
inductive Prim where
  | num (x : Int)
  | nan
  | str (s : String)
  | boolean (b : Bool)
  | undef
deriving Repr, DecidableEq

/-- A value stored in a tracked object: a primitive, or a reference cell
(`Ref`).  `id` is the cell's reference identity; `ro` marks a cell reached
through a `readonly()` wrapper (the case `isReadonly(oldValue) &&
isRef(oldValue)` of baseHandlers.ts line 170). -/
inductive Val where
  | prim (p : Prim)
  | ref (id : Nat) (ro : Bool) (contents : Prim)
deriving Repr, DecidableEq

/-- `isRef` (ref.ts): the value is a reference cell. -/
def isRefV : Val → Bool
  | .ref _ _ _ => true
  | _ => false

/-- `isReadonly` on a stored value: true for a cell behind a `readonly()`
wrapper; primitives are never read-only wrappers. -/
def isReadonlyV : Val → Bool
  | .ref _ ro _ => ro
  | _ => false

/-- `Object.is`-style sameness on values: primitives by value with
`NaN === NaN` considered equal; reference cells by reference identity. -/
def valIs : Val → Val → Bool
  | .prim a, .prim b => a == b
  | .ref i _ _, .ref j _ _ => i == j
  | _, _ => false

/-- Modelled from the spec: `hasChanged` comes from the `@vue/shared` package,
which is not under `src/`; the spec describes it as "a deep-enough equality
check that also treats `NaN`/`NaN` as equal (no-op writes must not trigger)",
i.e. `Object.is`-based difference. -/
def hasChanged (v old : Val) : Bool := !(valIs v old)

/-- A property key: a plain string or an integer index.  `PKey.i` stands for
the numeric-string keys accepted by `@vue/shared`'s `isIntegerKey`. -/
inductive PKey where
  | s (k : String)
  | i (n : Nat)
deriving Repr, DecidableEq

/-- `isIntegerKey` on this key representation. -/
def isIntegerKey : PKey → Bool
  | .i _ => true
  | _ => false

/-- A raw target object behind the proxy: a plain record, or an array with
its element slots plus any named (non-index, non-`length`) properties. -/
inductive RTarget where
  | record (fields : List (PKey × Val))
  | arr (elems : List Val) (fields : List (PKey × Val))
deriving Repr, DecidableEq

/-- `isArray(target)`. -/
def isArrT : RTarget → Bool
  | .arr _ _ => true
  | _ => false

/-- Association-list lookup for object fields. -/
def lookupF (fields : List (PKey × Val)) (k : PKey) : Option Val :=
  (fields.find? (fun p => p.1 == k)).map Prod.snd

/-- `target[key]` on the raw object: a missing property reads `undefined`;
an array's `length` reads its element count. -/
def getVal : RTarget → PKey → Val
  | .record fs, k => (lookupF fs k).getD (.prim .undef)
  | .arr es _, .i n => es.getD n (.prim .undef)
  | .arr es _, .s "length" => .prim (.num es.length)
  | .arr _ fs, k => (lookupF fs k).getD (.prim .undef)

/-- `hasOwn(target, key)`: for arrays an integer key is own iff it is below
the length (dense arrays), `length` is always own. -/
def hasOwnT : RTarget → PKey → Bool
  | .record fs, k => fs.any (fun p => p.1 == k)
  | .arr es _, .i n => decide (n < es.length)
  | .arr _ _, .s "length" => true
  | .arr _ fs, k => fs.any (fun p => p.1 == k)

/-- The `hadKey` computation of `createSetter` (baseHandlers.ts lines
186-193): for an array with an integer key, `Number(key) < target.length`;
otherwise `hasOwn(target, key)`. -/
def hadKeyT (t : RTarget) (k : PKey) : Bool :=
  match t, k with
  | .arr es _, .i n => decide (n < es.length)
  | _, _ => hasOwnT t k

/-- Field update: replace an existing key in place, else append (JS property
insertion order). -/
def setF (fields : List (PKey × Val)) (k : PKey) (v : Val) : List (PKey × Val) :=
  if fields.any (fun p => p.1 == k) then
    fields.map (fun p => if p.1 == k then (p.1, v) else p)
  else fields ++ [(k, v)]

/-- Pad an element list with `undefined` up to length `n`. -/
def padTo (es : List Val) (n : Nat) : List Val :=
  es ++ List.replicate (n - es.length) (.prim .undef)

/-- `Reflect.set(target, key, value)` on the raw object: records update their
field; arrays update in-range slots, extend (padding holes with `undefined`)
for out-of-range integer keys, resize on a numeric `length` write, and store
other named keys as properties. -/
def setRaw : RTarget → PKey → Val → RTarget
  | .record fs, k, v => .record (setF fs k v)
  | .arr es fs, .i n, v =>
      if n < es.length then .arr (es.set n v) fs
      else .arr (padTo es n ++ [v]) fs
  | .arr es fs, .s "length", v =>
      match v with
      | .prim (.num m) => .arr ((padTo es m.toNat).take m.toNat) fs
      | _ => .arr es fs
  | .arr es fs, k, v => .arr es (setF fs k v)

/-- `oldValue.value = value` (baseHandlers.ts line 179): write through the
reference cell sitting at `target[key]`, keeping the cell's identity. -/
def writeThroughRef (t : RTarget) (k : PKey) (p : Prim) : RTarget :=
  match getVal t k with
  | .ref i ro _ => setRaw t k (.ref i ro p)
  | _ => t

/-- The trigger operation kinds (operations.ts). -/
inductive TriggerOp where
  | set
  | add
  | del
  | clear
deriving Repr, DecidableEq

/-- Result of one proxy `set`/`deleteProperty` trap: the returned `Bool`, the
raw target afterwards, the trigger notification emitted (operation, key, new
value), if any, and the track events emitted (the write traps emit none). -/
structure SetResult where
  ok : Bool
  target : RTarget
  notif : Option (TriggerOp × PKey × Val)
  tracks : List PKey
deriving Repr, DecidableEq

/-- `createSetter(shallow)`'s `set` trap (baseHandlers.ts lines 162-207).
`receiverIsSelf` is `target === toRaw(receiver)` (line 198): the write target
is the object's own identity rather than a prototype-chain ancestor — when it
is false, `Reflect.set` defines the property on the receiver and this raw
target is unchanged.  In this model values are already raw, so the
`toRaw`/`isShallow` normalizations of lines 173-177 are identities.  The
read-only-cell guard (line 170) rejects replacing a read-only cell with a
non-cell; the cell write-through (lines 178-181) applies to non-arrays when
the old value is a cell and the new one is not; otherwise the raw write
happens, classified `add` for a previously absent key, `set` (only when
`hasChanged(value, oldValue)`) for an existing one. -/
def createSetter (shallow : Bool) (t : RTarget) (k : PKey) (v : Val)
    (receiverIsSelf : Bool) : SetResult :=
  let oldValue := getVal t k
  if isReadonlyV oldValue && isRefV oldValue && !isRefV v then
    ⟨false, t, none, []⟩
  else if !shallow && !isReadonlyV v && !isArrT t && isRefV oldValue && !isRefV v then
    ⟨true, (match v with | .prim p => writeThroughRef t k p | _ => t), none, []⟩
  else
    let hadKey := hadKeyT t k
    let t' := if receiverIsSelf then setRaw t k v else t
    if receiverIsSelf then
      if !hadKey then ⟨true, t', some (.add, k, v), []⟩
      else if hasChanged v oldValue then ⟨true, t', some (.set, k, v), []⟩
      else ⟨true, t', none, []⟩
    else ⟨true, t', none, []⟩

/-- The `set` trap of `readonlyHandlers` (baseHandlers.ts lines 245-253): a
DEV-only warning, no mutation, no track, no trigger, and `return true`. -/
def readonlySet (t : RTarget) (k : PKey) (v : Val) : SetResult :=
  ⟨true, t, none, []⟩

/-- The `deleteProperty` trap of `readonlyHandlers` (baseHandlers.ts lines
254-262): a DEV-only warning, no mutation, no track, no trigger, and
`return true`. -/
def readonlyDeleteProperty (t : RTarget) (k : PKey) : SetResult :=
  ⟨true, t, none, []⟩

/-! ### Theorems -/

theorem lengthKeyTest_some_true_iff (k : TKey) (newLen : Nat) :
    lengthKeyTest k newLen = some true ↔
      (k = TKey.length ∨ (∃ n, k = TKey.idx n ∧ newLen ≤ n) ∨
       (∃ q, k = TKey.strNum q ∧ (newLen : ℚ) ≤ q)) := by
  cases k <;> simp [lengthKeyTest]

theorem lengthFold_none (newLen : Nat) (dm : List (TKey × List Nat)) :
    dm.foldl (lengthStep newLen) none = none := by
  induction dm with
  | nil => rfl
  | cons p t ih => simpa [lengthStep] using ih

theorem lengthFold_char (newLen : Nat) (dm : List (TKey × List Nat))
    (acc : List (List Nat)) :
    dm.foldl (lengthStep newLen) (some acc) =
      if dm.any (fun p => (lengthKeyTest p.1 newLen).isNone) then none
      else some (acc ++
        (dm.filter (fun p => lengthKeyTest p.1 newLen == some true)).map Prod.snd) := by
  induction dm generalizing acc with
  | nil => simp
  | cons p t ih =>
    cases htest : lengthKeyTest p.1 newLen with
    | none => simp [lengthStep, htest, lengthFold_none]
    | some b =>
      cases b with
      | false =>
        rw [List.foldl_cons,
          show lengthStep newLen (some acc) p = some acc from by simp [lengthStep, htest],
          ih]
        simp [htest, List.filter_cons]
        have hiN : (lengthKeyTest p.1 newLen).isNone = false := by rw [htest]; rfl
        rw [hiN, Bool.false_or]
      | true =>
        rw [List.foldl_cons,
          show lengthStep newLen (some acc) p = some (acc ++ [p.2]) from by
            simp [lengthStep, htest],
          ih]
        simp [htest, List.filter_cons]
        have hiN : (lengthKeyTest p.1 newLen).isNone = false := by rw [htest]; rfl
        rw [hiN, Bool.false_or]

/-- **C1** (amended).  Provided no dep entry of the tracked array is keyed by
a symbol — otherwise the `key >= newValue` comparison of effect.ts line 340
throws a `TypeError` and nothing at all is notified — a write to `length`
notifies exactly the entries whose key is `length` or a numeric-string key
(an integer index, or any other string coercing to a number) numerically `≥`
the new length; entries for indices below the new length are not notified.
In the spec's scenario (computation 1 read index 0, computation 2 read index
3 of a four-element array), setting `length = 2` re-runs exactly
computation 2. -/
theorem trigger_length_notifies_ge_indices (dm : List (TKey × List Nat)) (newLen : Nat)
    (hnosym : ∀ p ∈ dm, (lengthKeyTest p.1 newLen).isNone = false) :
    (∃ l, triggerLengthEffects dm newLen = some l ∧
      ∀ f, f ∈ l ↔ ∃ p, p ∈ dm ∧ f ∈ p.2 ∧
        (p.1 = TKey.length ∨ (∃ n, p.1 = TKey.idx n ∧ newLen ≤ n) ∨
         (∃ q, p.1 = TKey.strNum q ∧ (newLen : ℚ) ≤ q))) ∧
    triggerLengthEffects shrinkScenarioMap 2 = some [2] := by
  have hany : dm.any (fun p => (lengthKeyTest p.1 newLen).isNone) = false := by
    rw [List.any_eq_false]
    intro p hp
    simp [hnosym p hp]
  constructor
  · refine ⟨((dm.filter (fun p => lengthKeyTest p.1 newLen == some true)).map
        Prod.snd).flatten, ?_, ?_⟩
    · simp [triggerLengthEffects, lengthFold_char, hany]
    · intro f
      simp only [List.mem_flatten, List.mem_map, List.mem_filter]
      constructor
      · rintro ⟨l, ⟨p, ⟨hp, hsel⟩, rfl⟩, hf⟩
        exact ⟨p, hp, hf,
          (lengthKeyTest_some_true_iff p.1 newLen).mp (by simpa using hsel)⟩
      · rintro ⟨p, hp, hf, hsel⟩
        exact ⟨p.2, ⟨p, ⟨hp,
          by simpa using (lengthKeyTest_some_true_iff p.1 newLen).mpr hsel⟩, rfl⟩, hf⟩
  · decide

/-- Witness for `trigger_length_notifies_ge_indices`: the shrink-scenario
`depsMap` holds no symbol keys, and the amended characterization applies. -/
theorem trigger_length_notifies_ge_indices_witness :
    ∃ l, triggerLengthEffects shrinkScenarioMap 2 = some l ∧
      ∀ f, f ∈ l ↔ ∃ p, p ∈ shrinkScenarioMap ∧ f ∈ p.2 ∧
        (p.1 = TKey.length ∨ (∃ n, p.1 = TKey.idx n ∧ 2 ≤ n) ∨
         (∃ q, p.1 = TKey.strNum q ∧ ((2 : Nat) : ℚ) ≤ q)) :=
  (trigger_length_notifies_ge_indices shrinkScenarioMap 2 (by decide)).1

/-- Counterexample to C1 as stated: with a user-symbol-keyed dep entry in the
array's `depsMap` (reachable by reading `arr[sym]` inside an effect — the get
trap tracks every non-built-in symbol), setting `length = 2` makes the
`forEach` comparison `key >= newValue` throw a `TypeError`, so `trigger`
notifies nothing — in particular not the `length` entry's subscriber `1`,
which the claim requires to be notified. -/
theorem trigger_length_symbol_crash :
    triggerLengthEffects symbolScenarioMap 2 = none ∧
    ¬ ∃ l, triggerLengthEffects symbolScenarioMap 2 = some l ∧ 1 ∈ l := by
  refine ⟨rfl, ?_⟩
  rintro ⟨l, hl, -⟩
  rw [show triggerLengthEffects symbolScenarioMap 2 = none from rfl] at hl
  cases hl

theorem readValue_of_clean (g : Nat) (c : CState)
    (hd : c._dirty = false) (hc : c._cacheable = true) : readValue g c = c := by
  simp [readValue, hd, hc]

theorem readValue_iterate (g : Nat) (c : CState) (hc : c._cacheable = true) :
    ∀ n, 1 ≤ n → (readValue g)^[n] c = readValue g c := by
  intro n hn
  induction n with
  | zero => omega
  | succ m ih =>
    cases Nat.eq_or_lt_of_le hn with
    | inl h => rw [← h]; simp
    | inr h =>
      rw [Function.iterate_succ_apply', ih (by omega)]
      apply readValue_of_clean
      · by_cases hd : c._dirty <;> simp [readValue, hd, hc]
      · by_cases hd : c._dirty <;> simp [readValue, hd, hc]

/-- **C4.** Memoization contract of `ComputedRefImpl`: starting dirty (and
cacheable, i.e. non-SSR), `n ≥ 2` consecutive reads of `.value` with no
intervening invalidation run the getter exactly once; one invalidation
followed by `m ≥ 1` reads runs it exactly once more; the invalidation hook
only flips `_dirty` from `false` to `true` and bumps the ref's own dependent
notification (`triggerRefValue`), it never runs the getter, and a second
invalidation while already dirty is a no-op. -/
theorem computed_memoization (g g' : Nat) (c : CState) (n m : Nat)
    (hd : c._dirty = true) (hc : c._cacheable = true)
    (hn : 2 ≤ n) (hm : 1 ≤ m) :
    (((readValue g)^[n] c).runs = c.runs + 1) ∧
    (((readValue g)^[n] c)._dirty = false) ∧
    (invalidate ((readValue g)^[n] c) =
      { (readValue g)^[n] c with
          _dirty := true, notifies := ((readValue g)^[n] c).notifies + 1 }) ∧
    ((invalidate ((readValue g)^[n] c)).runs = ((readValue g)^[n] c).runs) ∧
    (((readValue g')^[m] (invalidate ((readValue g)^[n] c))).runs = c.runs + 2) ∧
    (invalidate (invalidate ((readValue g)^[n] c)) =
      invalidate ((readValue g)^[n] c)) := by
  have h1 : (readValue g)^[n] c = readValue g c :=
    readValue_iterate g c hc n (by omega)
  have hr : readValue g c =
      { c with _dirty := false, _value := g, runs := c.runs + 1 } := by
    simp [readValue, hd]
  have h2 : invalidate ((readValue g)^[n] c) =
      { c with _dirty := true, _value := g, runs := c.runs + 1,
               notifies := c.notifies + 1 } := by
    rw [h1, hr]; simp [invalidate]
  refine ⟨?_, ?_, ?_, ?_, ?_, ?_⟩
  · rw [h1, hr]
  · rw [h1, hr]
  · rw [h2, h1, hr]
  · rw [h2, h1, hr]
  · rw [h2]
    have hcc : ({ c with _dirty := true, _value := g, runs := c.runs + 1, notifies := c.notifies + 1 } : CState)._cacheable = true := hc
    rw [readValue_iterate g' _ hcc m hm]
    simp [readValue]
  · rw [h2]; simp [invalidate]

/-- Witness for `computed_memoization` at a concrete dirty cacheable state,
`n = 2`, `m = 3`. -/
theorem computed_memoization_witness :
    ((readValue 5)^[2] ⟨true, true, 0, 0, 0⟩).runs = 1 ∧
    ((readValue 7)^[3] (invalidate ((readValue 5)^[2] ⟨true, true, 0, 0, 0⟩))).runs = 2 := by
  have h := computed_memoization 5 7 ⟨true, true, 0, 0, 0⟩ 2 3 rfl rfl
    (by decide) (by decide)
  exact ⟨h.1, h.2.2.2.2.1⟩

theorem clearBit_and_self (x bit : Nat) : clearBit x bit &&& bit = 0 := by
  rw [clearBit, Nat.and_xor_distrib_right, Nat.and_assoc, Nat.and_self,
    Nat.xor_self]

theorem depFinal_members (dd : DepData) (e bit : Nat) :
    (depFinal dd e bit).members =
      if staleB dd bit then dd.members.filter (fun f => f != e) else dd.members := by
  by_cases h : staleB dd bit <;> simp [depFinal, depDelete, h]

theorem depFinal_not_mem (dd : DepData) (e bit : Nat) (h : staleB dd bit = true) :
    e ∉ (depFinal dd e bit).members := by
  rw [depFinal_members, h]
  simp [List.mem_filter]

theorem depFinal_bits (dd : DepData) (e bit : Nat) :
    wasTracked (depFinal dd e bit) bit = false ∧
    newTracked (depFinal dd e bit) bit = false := by
  by_cases h : staleB dd bit <;>
    simp [depFinal, depDelete, h, wasTracked, newTracked, clearBit_and_self]

/-- Characterization of the `finalizeDepMarkers` fold over a duplicate-free
deps list, for any starting store and accumulator. -/
theorem finFold_char (e bit : Nat) (l : List Nat) (st : Nat → DepData)
    (acc : List Nat) (hnd : l.Nodup) :
    ((l.foldl (finStep e bit) (st, acc)).2 =
        acc ++ l.filter (fun d => !staleB (st d) bit)) ∧
    (∀ d ∈ l, (l.foldl (finStep e bit) (st, acc)).1 d = depFinal (st d) e bit) ∧
    (∀ d, d ∉ l → (l.foldl (finStep e bit) (st, acc)).1 d = st d) := by
  induction l generalizing st acc with
  | nil => simp
  | cons a t ih =>
    obtain ⟨ha, hnt⟩ := List.nodup_cons.mp hnd
    have hstep : finStep e bit (st, acc) a =
        (fun i => if i = a then depFinal (st a) e bit else st i,
         if staleB (st a) bit then acc else acc ++ [a]) := rfl
    rw [List.foldl_cons, hstep]
    obtain ⟨ih1, ih2, ih3⟩ :=
      ih (fun i => if i = a then depFinal (st a) e bit else st i)
        (if staleB (st a) bit then acc else acc ++ [a]) hnt
    have hagree : ∀ x ∈ t, (if x = a then depFinal (st a) e bit else st x) = st x := by
      intro x hx
      have hxa : x ≠ a := fun h => ha (h ▸ hx)
      simp [hxa]
    refine ⟨?_, ?_, ?_⟩
    · rw [ih1]
      have hfc : t.filter
            (fun d => !staleB (if d = a then depFinal (st a) e bit else st d) bit) =
          t.filter (fun d => !staleB (st d) bit) := by
        apply List.filter_congr
        intro x hx
        rw [hagree x hx]
      rw [hfc]
      by_cases hs : staleB (st a) bit <;> simp [List.filter_cons, hs]
    · intro d hd
      rcases List.mem_cons.mp hd with rfl | hdt
      · rw [ih3 d ha]
        simp
      · rw [ih2 d hdt, hagree d hdt]
    · intro d hd
      have hda : d ≠ a := fun h => hd (h ▸ List.mem_cons_self a t)
      have hdt : d ∉ t := fun h => hd (List.mem_cons_of_mem a h)
      rw [ih3 d hdt]
      simp [hda]

/-- **C7.** At the end of a run (within the marker depth cap),
`finalizeDepMarkers` removes the effect from exactly those deps whose
was-tracked bit is set for the current generation and whose newly-tracked bit
is not (stale deps), compacts the surviving deps to the front of the effect's
back-reference list in order, and clears both generation bits of every visited
dep; deps outside the list and other effects are untouched. -/
theorem finalizeDepMarkers_spec (s : RState) (e bit : Nat)
    (hnd : (s.eff e).deps.Nodup) :
    (((finalizeDepMarkers s e bit).eff e).deps =
        (s.eff e).deps.filter (fun d => !staleB (s.dep d) bit)) ∧
    (∀ d ∈ (s.eff e).deps, staleB (s.dep d) bit = true →
        e ∉ ((finalizeDepMarkers s e bit).dep d).members) ∧
    (∀ d ∈ (s.eff e).deps, staleB (s.dep d) bit = false →
        ((finalizeDepMarkers s e bit).dep d).members = (s.dep d).members) ∧
    (∀ d ∈ (s.eff e).deps,
        wasTracked ((finalizeDepMarkers s e bit).dep d) bit = false ∧
        newTracked ((finalizeDepMarkers s e bit).dep d) bit = false) ∧
    (∀ d, d ∉ (s.eff e).deps → (finalizeDepMarkers s e bit).dep d = s.dep d) ∧
    (∀ f, f ≠ e → (finalizeDepMarkers s e bit).eff f = s.eff f) := by
  obtain ⟨h1, h2, h3⟩ := finFold_char e bit (s.eff e).deps s.dep [] hnd
  refine ⟨?_, ?_, ?_, ?_, ?_, ?_⟩
  · simp only [finalizeDepMarkers]
    rw [h1]
    simp
  · intro d hd hs
    simp only [finalizeDepMarkers]
    rw [h2 d hd]
    exact depFinal_not_mem _ _ _ hs
  · intro d hd hs
    simp only [finalizeDepMarkers]
    rw [h2 d hd, depFinal_members, hs]
    simp
  · intro d hd
    simp only [finalizeDepMarkers]
    rw [h2 d hd]
    exact depFinal_bits _ _ _
  · intro d hd
    simp only [finalizeDepMarkers]
    rw [h3 d hd]
  · intro f hf
    simp [finalizeDepMarkers, hf]

/-- Witness for `finalizeDepMarkers_spec`: an effect `0` tracked deps `[0, 1]`
at generation bit `2`; dep `0` is stale (`w = 2`, `n = 0`), dep `1` was
re-collected (`w = 2`, `n = 2`).  Finalization drops dep `0`, keeps dep `1`,
and clears the bits of both. -/
theorem finalizeDepMarkers_spec_witness :
    (((finalizeDepMarkers
        ⟨fun d => if d = 0 then ⟨[0], 2, 0⟩ else ⟨[0], 2, 2⟩,
         fun f => ⟨if f = 0 then [0, 1] else [], true, false, none, false⟩⟩
        0 2).eff 0).deps = [1]) ∧
    (0 ∉ ((finalizeDepMarkers
        ⟨fun d => if d = 0 then ⟨[0], 2, 0⟩ else ⟨[0], 2, 2⟩,
         fun f => ⟨if f = 0 then [0, 1] else [], true, false, none, false⟩⟩
        0 2).dep 0).members) := by
  have h := finalizeDepMarkers_spec
    ⟨fun d => if d = 0 then ⟨[0], 2, 0⟩ else ⟨[0], 2, 2⟩,
     fun f => ⟨if f = 0 then [0, 1] else [], true, false, none, false⟩⟩
    0 2 (by simp)
  refine ⟨?_, h.2.1 0 (by simp) (by decide)⟩
  rw [h.1]
  decide

/-- **C2.** `ReactiveEffect.stop` on an active effect, in a state where every
membership has a back-reference (one half of the bidirectional-link
invariant): it marks the effect inactive permanently, invokes the `onStop`
callback exactly when one is attached, empties the back-reference list,
removes the effect from every dep in the graph, is idempotent (a second
`stop` changes nothing and invokes no callback), and afterwards no trigger on
any dep ever selects the stopped effect for re-running. -/
theorem stop_spec (s : RState) (e : Nat)
    (hinv : ∀ d, e ∈ (s.dep d).members → d ∈ (s.eff e).deps)
    (hact : (s.eff e).active = true) :
    (((stop s e).1.eff e).active = false) ∧
    ((stop s e).2 = (s.eff e).onStop) ∧
    (((stop s e).1.eff e).deps = []) ∧
    (∀ d, e ∉ ((stop s e).1.dep d).members) ∧
    (stop (stop s e).1 e = ((stop s e).1, false)) ∧
    (∀ d activeE, e ∉ triggerRunList (stop s e).1 d activeE) := by
  have hs : stop s e =
      ({ cleanupEffect s e with
          eff := fun f => if f = e then { (cleanupEffect s e).eff f with active := false }
                          else (cleanupEffect s e).eff f },
       (s.eff e).onStop) := by
    simp [stop, hact]
  have hmem : ∀ d, e ∉ ((stop s e).1.dep d).members := by
    intro d hd
    rw [hs] at hd
    simp only [cleanupEffect] at hd
    by_cases hc : d ∈ (s.eff e).deps
    · rw [if_pos hc] at hd
      simp [depDelete, List.mem_filter] at hd
    · rw [if_neg hc] at hd
      exact hc (hinv d hd)
  have hinactive : ∀ (s2 : RState), (s2.eff e).active = false → stop s2 e = (s2, false) := by
    intro s2 h2
    simp [stop, h2]
  refine ⟨?_, ?_, ?_, hmem, ?_, ?_⟩
  · rw [hs]; simp
  · rw [hs]
  · rw [hs]; simp [cleanupEffect]
  · have hact' : ((stop s e).1.eff e).active = false := by rw [hs]; simp
    exact hinactive _ hact'
  · intro d activeE hd
    exact hmem d (List.mem_of_mem_filter hd)

/-- Witness for `stop_spec`: effect `7` is the sole member of dep `0` and
holds the matching back-reference; stopping it deactivates it, fires its
`onStop`, and removes it from dep `0`. -/
theorem stop_spec_witness :
    ((((stop
        ⟨fun d => ⟨if d = 0 then [7] else [], 0, 0⟩,
         fun f => ⟨if f = 7 then [0] else [], true, false, none, true⟩⟩
        7).1).eff 7).active = false) ∧
    ((stop
        ⟨fun d => ⟨if d = 0 then [7] else [], 0, 0⟩,
         fun f => ⟨if f = 7 then [0] else [], true, false, none, true⟩⟩
        7).2 = true) ∧
    (7 ∉ (((stop
        ⟨fun d => ⟨if d = 0 then [7] else [], 0, 0⟩,
         fun f => ⟨if f = 7 then [0] else [], true, false, none, true⟩⟩
        7).1).dep 0).members) := by
  have h := stop_spec
    ⟨fun d => ⟨if d = 0 then [7] else [], 0, 0⟩,
     fun f => ⟨if f = 7 then [0] else [], true, false, none, true⟩⟩
    7
    (by
      intro d hd
      by_cases hd0 : d = 0
      · subst hd0; simp
      · simp [hd0] at hd)
    rfl
  exact ⟨h.1, h.2.1, h.2.2.2.1 0⟩

theorem biInv_congr (s s' : RState)
    (hd : ∀ d, (s'.dep d).members = (s.dep d).members)
    (he : ∀ f, (s'.eff f).deps = (s.eff f).deps) :
    biInv s → biInv s' := by
  rintro ⟨h1, h2⟩
  refine ⟨fun d f => ?_, fun f => ?_⟩
  · rw [hd, he]; exact h1 d f
  · rw [he]; exact h2 f

theorem addBoth_biInv (s : RState) (d e : Nat) (hinv : biInv s)
    (hnd : d ∉ (s.eff e).deps) : biInv (addBoth s d e) := by
  obtain ⟨h1, h2⟩ := hinv
  have hne : e ∉ (s.dep d).members := fun h => hnd ((h1 d e).mp h)
  refine ⟨fun d' f' => ?_, fun f' => ?_⟩
  · by_cases hdd : d' = d
    · subst hdd
      by_cases hff : f' = e
      · subst hff
        simp [addBoth, depAdd, hne]
      · simp [addBoth, depAdd, hne, hff, h1 d' f']
    · by_cases hff : f' = e
      · subst hff
        simp [addBoth, hdd, h1 d' f', Ne.symm hdd]
      · simp [addBoth, hdd, hff, h1 d' f']
  · by_cases hff : f' = e
    · subst hff
      simp [addBoth, List.nodup_append, h2 f', hnd]
    · simp [addBoth, hff, h2 f']

theorem cleanupEffect_biInv (s : RState) (e : Nat) (hinv : biInv s) :
    biInv (cleanupEffect s e) := by
  obtain ⟨h1, h2⟩ := hinv
  refine ⟨fun d f => ?_, fun f => ?_⟩
  · by_cases hff : f = e
    · subst hff
      by_cases hc : d ∈ (s.eff f).deps
      · simp [cleanupEffect, hc, depDelete, List.mem_filter]
      · simp [cleanupEffect, hc, h1 d f]
    · by_cases hc : d ∈ (s.eff e).deps
      · simp [cleanupEffect, hc, hff, depDelete, List.mem_filter, h1 d f]
      · simp [cleanupEffect, hc, hff, h1 d f]
  · by_cases hff : f = e
    · subst hff
      simp [cleanupEffect]
    · simp [cleanupEffect, hff, h2 f]

theorem finalizeDepMarkers_biInv (s : RState) (e bit : Nat) (hinv : biInv s) :
    biInv (finalizeDepMarkers s e bit) := by
  obtain ⟨h1, h2⟩ := hinv
  obtain ⟨hf1, hf2, hf3⟩ := finFold_char e bit (s.eff e).deps s.dep [] (h2 e)
  have hdep : ∀ d, (finalizeDepMarkers s e bit).dep d =
      ((s.eff e).deps.foldl (finStep e bit) (s.dep, [])).1 d := fun d => rfl
  have heff : ((finalizeDepMarkers s e bit).eff e).deps =
      ((s.eff e).deps.foldl (finStep e bit) (s.dep, [])).2 := by
    simp [finalizeDepMarkers]
  have heff2 : ∀ f, f ≠ e → (finalizeDepMarkers s e bit).eff f = s.eff f := by
    intro f hf
    simp [finalizeDepMarkers, hf]
  refine ⟨fun d f => ?_, fun f => ?_⟩
  · by_cases hff : f = e
    · subst hff
      rw [heff, hf1]
      by_cases hdm : d ∈ (s.eff f).deps
      · rw [hdep d, hf2 d hdm, depFinal_members]
        by_cases hst : staleB (s.dep d) bit = true
        · simp [hst, List.mem_filter, hdm]
        · simp [hst, List.mem_filter, hdm, h1 d f]
      · rw [hdep d, hf3 d hdm]
        simp [List.mem_filter, hdm, h1 d f]
    · rw [heff2 f hff]
      by_cases hdm : d ∈ (s.eff e).deps
      · rw [hdep d, hf2 d hdm, depFinal_members]
        by_cases hst : staleB (s.dep d) bit = true
        · simp [hst, List.mem_filter, hff, h1 d f]
        · simp [hst, h1 d f]
      · rw [hdep d, hf3 d hdm]
        exact h1 d f
  · by_cases hff : f = e
    · subst hff
      rw [heff, hf1]
      exact (h2 f).filter _
    · rw [heff2 f hff]
      exact h2 f

theorem or_bit_and_ne_zero (w bit : Nat) (h : bit ≠ 0) : ((w ||| bit) &&& bit) ≠ 0 := by
  intro hz
  apply h
  apply Nat.eq_of_testBit_eq
  intro i
  have hi := congrArg (Nat.testBit · i) hz
  simp only [Nat.testBit_and, Nat.testBit_or, Nat.zero_testBit] at hi ⊢
  cases hb : Nat.testBit bit i
  · rfl
  · rw [hb] at hi
    simp at hi

theorem wasTracked_or_bit (dd : DepData) (bit : Nat) (h : bit ≠ 0) :
    wasTracked { dd with w := dd.w ||| bit } bit = true := by
  simp only [wasTracked]
  simpa using or_bit_and_ne_zero dd.w bit h

theorem newTracked_or_bit (dd : DepData) (bit : Nat) (h : bit ≠ 0) :
    newTracked { dd with n := dd.n ||| bit } bit = true := by
  simp only [newTracked]
  simpa using or_bit_and_ne_zero dd.n bit h

theorem depAdd_n (dd : DepData) (e : Nat) : (depAdd dd e).n = dd.n := by
  by_cases h : e ∈ dd.members <;> simp [depAdd, h]

theorem newTracked_depAdd (dd : DepData) (e bit : Nat) :
    newTracked (depAdd dd e) bit = newTracked dd bit := by
  simp [newTracked, depAdd_n]

/-- **C10.** The effect/dep back-reference link is kept bidirectional by every
operation on the graph, across whole runs: `cleanupEffect` (the removal path
used by `stop` and by over-depth runs) and `finalizeDepMarkers` (the
marker-diff removal path) preserve the membership-iff-back-reference invariant
unconditionally; `trackEffects` preserves it whenever (in marker mode) every
dep already in the effect's list carries the generation in its was-tracked
*or* newly-tracked bit (`markedInv`); and that marker condition itself is
established by `initDepMarkers` at run entry and re-established by every
`trackEffects` (a freshly appended dep has just received its `n` bit), so the
invariant chains through an arbitrary sequence of track events within a
run. -/
theorem graph_links_bidirectional (s : RState) (d e bit depth : Nat)
    (hinv : biInv s) :
    biInv (cleanupEffect s e) ∧
    biInv (finalizeDepMarkers s e bit) ∧
    ((depth ≤ maxMarkerBits → markedInv s e bit) → biInv (trackEffects s d e bit depth)) ∧
    (bit ≠ 0 → markedInv (initDepMarkers s e bit) e bit) ∧
    (depth ≤ maxMarkerBits → bit ≠ 0 → markedInv s e bit →
      markedInv (trackEffects s d e bit depth) e bit) := by
  refine ⟨cleanupEffect_biInv s e hinv, finalizeDepMarkers_biInv s e bit hinv, ?_, ?_, ?_⟩
  · intro hmk
    by_cases hdep : depth ≤ maxMarkerBits
    · by_cases hnew : newTracked (s.dep d) bit = true
      · simpa [trackEffects, hdep, hnew] using hinv
      · by_cases hwas : wasTracked (s.dep d) bit = true
        · have hgoal : trackEffects s d e bit depth =
              { s with dep := fun i =>
                  if i = d then { s.dep i with n := (s.dep i).n ||| bit } else s.dep i } := by
            simp [trackEffects, hdep, hnew, hwas]
          rw [hgoal]
          refine biInv_congr s _ (fun d' => ?_) (fun f => rfl) hinv
          by_cases hdd : d' = d <;> simp [hdd]
        · have hgoal : trackEffects s d e bit depth =
              addBoth { s with dep := fun i =>
                  if i = d then { s.dep i with n := (s.dep i).n ||| bit } else s.dep i } d e := by
            simp [trackEffects, hdep, hnew, hwas]
          rw [hgoal]
          have hs1 : biInv { s with dep := fun i =>
              if i = d then { s.dep i with n := (s.dep i).n ||| bit } else s.dep i } := by
            refine biInv_congr s _ (fun d' => ?_) (fun f => rfl) hinv
            by_cases hdd : d' = d <;> simp [hdd]
          apply addBoth_biInv _ _ _ hs1
          show d ∉ (s.eff e).deps
          intro hmem
          rcases hmk hdep d hmem with h | h
          · exact hwas h
          · exact hnew h
    · by_cases hmem : e ∈ (s.dep d).members
      · simpa [trackEffects, hdep, hmem] using hinv
      · have hgoal : trackEffects s d e bit depth = addBoth s d e := by
          simp [trackEffects, hdep, hmem]
        rw [hgoal]
        exact addBoth_biInv s d e hinv (fun h => hmem ((hinv.1 d e).mpr h))
  · intro hbit d' hd'
    have hd2 : d' ∈ (s.eff e).deps := hd'
    left
    have hrw : (initDepMarkers s e bit).dep d' =
        { s.dep d' with w := (s.dep d').w ||| bit } := by
      simp [initDepMarkers, hd2]
    rw [hrw]
    exact wasTracked_or_bit (s.dep d') bit hbit
  · intro hdep hbit hm
    by_cases hnew : newTracked (s.dep d) bit = true
    · have hgoal : trackEffects s d e bit depth = s := by
        simp [trackEffects, hdep, hnew]
      rw [hgoal]
      exact hm
    · by_cases hwas : wasTracked (s.dep d) bit = true
      · have hgoal : trackEffects s d e bit depth =
            { s with dep := fun i =>
                if i = d then { s.dep i with n := (s.dep i).n ||| bit } else s.dep i } := by
          simp [trackEffects, hdep, hnew, hwas]
        rw [hgoal]
        intro d' hd'
        have hd2 : d' ∈ (s.eff e).deps := hd'
        by_cases hdd : d' = d
        · subst hdd
          right
          have hrw : ({ s with dep := fun i =>
              if i = d' then { s.dep i with n := (s.dep i).n ||| bit } else s.dep i } :
                RState).dep d' = { s.dep d' with n := (s.dep d').n ||| bit } := by
            simp
          rw [hrw]
          exact newTracked_or_bit (s.dep d') bit hbit
        · have hrw : ({ s with dep := fun i =>
              if i = d then { s.dep i with n := (s.dep i).n ||| bit } else s.dep i } :
                RState).dep d' = s.dep d' := by
            simp [hdd]
          rw [hrw]
          exact hm d' hd2
      · have hgoal : trackEffects s d e bit depth =
            addBoth { s with dep := fun i =>
                if i = d then { s.dep i with n := (s.dep i).n ||| bit } else s.dep i } d e := by
          simp [trackEffects, hdep, hnew, hwas]
        rw [hgoal]
        intro d' hd'
        have hd2 : d' ∈ (s.eff e).deps ++ [d] := by
          simpa [addBoth] using hd'
        rcases List.mem_append.mp hd2 with hold | hnewm
        · have hdd : d' ≠ d := by
            intro heq
            subst heq
            rcases hm d' hold with h | h
            · exact hwas h
            · exact hnew h
          have hrw : (addBoth { s with dep := fun i =>
              if i = d then { s.dep i with n := (s.dep i).n ||| bit } else s.dep i } d e).dep d'
              = s.dep d' := by
            simp [addBoth, hdd]
          rw [hrw]
          exact hm d' hold
        · have hdd : d' = d := by simpa using hnewm
          subst hdd
          right
          have hrw : (addBoth { s with dep := fun i =>
              if i = d' then { s.dep i with n := (s.dep i).n ||| bit } else s.dep i } d' e).dep d'
              = depAdd { s.dep d' with n := (s.dep d').n ||| bit } e := by
            simp [addBoth]
          rw [hrw, newTracked_depAdd]
          exact newTracked_or_bit (s.dep d') bit hbit

/-- Witness for `graph_links_bidirectional` on a concrete state: effect `0`
is a member of dep `5` (whose was-tracked bit holds the generation) and
back-references it; tracking a fresh dep `6` in marker mode preserves the
invariant (conclusion instantiated at the new pair). -/
theorem graph_links_bidirectional_witness :
    (0 ∈ ((trackEffects
        ⟨fun d => ⟨if d = 5 then [0] else [], if d = 5 then 2 else 0, 0⟩,
         fun f => ⟨if f = 0 then [5] else [], true, false, none, false⟩⟩
        6 0 2 1).dep 6).members ↔
      6 ∈ ((trackEffects
        ⟨fun d => ⟨if d = 5 then [0] else [], if d = 5 then 2 else 0, 0⟩,
         fun f => ⟨if f = 0 then [5] else [], true, false, none, false⟩⟩
        6 0 2 1).eff 0).deps) := by
  have hinv : biInv
      ⟨fun d => ⟨if d = 5 then [0] else [], if d = 5 then 2 else 0, 0⟩,
       fun f => ⟨if f = 0 then [5] else [], true, false, none, false⟩⟩ := by
    constructor
    · intro d f
      by_cases hd5 : d = 5
      · subst hd5
        by_cases hf0 : f = 0 <;> simp [hf0]
      · by_cases hf0 : f = 0 <;> simp [hd5, hf0]
    · intro f
      by_cases hf0 : f = 0 <;> simp [hf0]
  have h := graph_links_bidirectional
    ⟨fun d => ⟨if d = 5 then [0] else [], if d = 5 then 2 else 0, 0⟩,
     fun f => ⟨if f = 0 then [5] else [], true, false, none, false⟩⟩
    6 0 2 1 hinv
  have hm := h.2.2.1 (by
    intro hdep d' hd'
    simp at hd'
    subst hd'
    left
    decide)
  exact hm.1 6 0

/-- **C3.** The self-recursion guard of `run()`: an active effect that already
appears on the parent (currently-executing) chain returns immediately without
executing its function; consequently, in the self-trigger scenario (an effect
that synchronously re-triggers its own dependency during its own run, without
`allowRecurse`) one external trigger executes the effect exactly once, with an
execution log independent of the interpreter's fuel bound — no unbounded
recursion. -/
theorem run_self_recursion_guard :
    (∀ (w : World) (fuel : Nat) (stack : List Nat) (e : Nat),
      (w.rs.eff e).active = true → e ∈ stack → runLog w fuel stack e = []) ∧
    (∀ fuel, 1 ≤ fuel → runLog selfTriggerWorld fuel [] 0 = [0]) := by
  constructor
  · intro w fuel stack e hact hmem
    cases fuel with
    | zero => rfl
    | succ n => simp [runLog, hact, hmem]
  · intro fuel hf
    cases fuel with
    | zero => omega
    | succ n => simp [runLog, selfTriggerWorld]

/-- Witness for `run_self_recursion_guard`: with the self-trigger world,
running effect `0` while it is on the chain executes nothing, and one
external trigger executes it exactly once. -/
theorem run_self_recursion_guard_witness :
    runLog selfTriggerWorld 5 [0] 0 = [] ∧ runLog selfTriggerWorld 3 [] 0 = [0] :=
  ⟨run_self_recursion_guard.1 selfTriggerWorld 5 [0] 0 rfl (by decide),
   run_self_recursion_guard.2 3 (by decide)⟩

/-- **C8.** If the user function throws during `run()`, the `finally` block
still executes on that exit path: the outcome is `threw`, but the active
effect chain, the `shouldTrack` flag and the tracking depth (hence
`trackOpBit`) are restored to their pre-run values, the `parent` reference of
the effect is cleared, and the dep-marker finalize pass has been applied to
the state the user function left behind (when within the marker depth cap;
beyond it only the parent is cleared, matching the code).  `hd` states that
the user function restored the depth counter on its own exits, which every
nested `run` guarantees. -/
theorem run_cleanup_on_throw (fn : GState → GState × Bool) (e : Nat) (g g3 : GState)
    (hact : (g.rs.eff e).active = true)
    (hni : e ∉ g.stack)
    (hfn : fn (preRun g e) = (g3, true))
    (hd : g3.depth = g.depth + 1) :
    ((runWith fn e g).2 = RunOutcome.threw) ∧
    ((runWith fn e g).1.stack = g.stack) ∧
    ((runWith fn e g).1.shouldTrack = g.shouldTrack) ∧
    ((runWith fn e g).1.depth = g.depth) ∧
    (((runWith fn e g).1.rs.eff e).parent = none) ∧
    (g.depth + 1 ≤ maxMarkerBits →
      (runWith fn e g).1.rs = clearParent (finalizeDepMarkers g3.rs e (2 ^ (g.depth + 1))) e) ∧
    (maxMarkerBits < g.depth + 1 →
      (runWith fn e g).1.rs = clearParent g3.rs e) := by
  have hrw : runWith fn e g =
      ({ stack := g.stack, shouldTrack := g.shouldTrack, depth := g3.depth - 1,
         rs := clearParent
          (if g3.depth ≤ maxMarkerBits then finalizeDepMarkers g3.rs e (2 ^ g3.depth)
           else g3.rs) e },
       RunOutcome.threw) := by
    simp [runWith, hact, hni, hfn]
  refine ⟨?_, ?_, ?_, ?_, ?_, ?_, ?_⟩
  · rw [hrw]
  · rw [hrw]
  · rw [hrw]
  · rw [hrw]; simp [hd]
  · rw [hrw]; simp [clearParent]
  · intro hcap
    rw [hrw]
    simp only [hd]
    rw [if_pos hcap]
  · intro hcap
    rw [hrw]
    simp only [hd]
    rw [if_neg (by omega : ¬ g.depth + 1 ≤ maxMarkerBits)]

/-- Witness for `run_cleanup_on_throw`: a throwing user function
(`fn := fun g => (g, true)`) run on a fresh effect `0` at depth `0`. -/
theorem run_cleanup_on_throw_witness :
    ((runWith (fun g => (g, true)) 0
        ⟨[], true, 0, ⟨fun _ => ⟨[], 0, 0⟩, fun _ => ⟨[], true, false, none, false⟩⟩⟩).2 =
      RunOutcome.threw) ∧
    ((runWith (fun g => (g, true)) 0
        ⟨[], true, 0, ⟨fun _ => ⟨[], 0, 0⟩, fun _ => ⟨[], true, false, none, false⟩⟩⟩).1.depth = 0) ∧
    (((runWith (fun g => (g, true)) 0
        ⟨[], true, 0, ⟨fun _ => ⟨[], 0, 0⟩, fun _ => ⟨[], true, false, none, false⟩⟩⟩).1.rs.eff 0).parent
      = none) := by
  have h := run_cleanup_on_throw (fun g => (g, true)) 0
    ⟨[], true, 0, ⟨fun _ => ⟨[], 0, 0⟩, fun _ => ⟨[], true, false, none, false⟩⟩⟩
    (preRun ⟨[], true, 0, ⟨fun _ => ⟨[], 0, 0⟩, fun _ => ⟨[], true, false, none, false⟩⟩⟩ 0)
    rfl (by simp) rfl (by simp [preRun, maxMarkerBits])
  exact ⟨h.1, h.2.2.2.1, h.2.2.2.2.1⟩

theorem getIdKey_eq_top_iff (j : SJob) : getIdKey j = ⊤ ↔ j.id = none := by
  cases h : j.id <;> simp [getIdKey, h]

/-- **C6.** Within one flush of the main job queue, execution order is
ascending by identity number: the executed list is pairwise ordered by the
sort key, jobs carrying ids run in ascending id order, a job with no id
(key `Infinity`) never precedes nothing — i.e. once an id-less job runs, every
later job is also id-less, so id-less jobs sort after every numbered one; and
in the concrete scenario of enqueuing ids 3, 1, 2 in that order through
`queueJob`, the flush executes them as 1, 2, 3. -/
theorem flush_executes_in_id_order :
    (∀ q, (flushExec q).Pairwise jobLe) ∧
    (∀ (q : List SJob) (i j : Fin (flushExec q).length), (i : Nat) < (j : Nat) →
      ∀ a b, ((flushExec q).get i).id = some a → ((flushExec q).get j).id = some b →
        a ≤ b) ∧
    (∀ (q : List SJob) (i j : Fin (flushExec q).length), (i : Nat) < (j : Nat) →
      ((flushExec q).get i).id = none → ((flushExec q).get j).id = none) ∧
    ((flushExec (queueJob (queueJob (queueJob [] (mkJob 3)) (mkJob 1)) (mkJob 2))).map
        SJob.tag = [1, 2, 3]) := by
  have hpw : ∀ q, (flushExec q).Pairwise jobLe := by
    intro q
    exact (List.sorted_insertionSort jobLe q).sublist (List.filter_sublist _)
  refine ⟨hpw, ?_, ?_, ?_⟩
  · intro q i j hij a b ha hb
    have h := List.pairwise_iff_get.mp (hpw q) i j hij
    rw [jobLe, getIdKey, getIdKey, ha, hb] at h
    exact WithTop.coe_le_coe.mp h
  · intro q i j hij ha
    have h := List.pairwise_iff_get.mp (hpw q) i j hij
    rw [jobLe, (getIdKey_eq_top_iff _).mpr ha] at h
    exact (getIdKey_eq_top_iff _).mp (top_le_iff.mp h)
  · decide

/-- Witness for `flush_executes_in_id_order`: in a flush of a queue holding an
id-less job and job 1, the id-1 job runs first and only id-less jobs follow
it. -/
theorem flush_executes_in_id_order_witness :
    ((flushExec [⟨none, true, 8⟩, ⟨none, true, 9⟩]).get
        ⟨1, by decide⟩).id = none ∧
    1 ≤ 2 := by
  refine ⟨?_, by decide⟩
  exact flush_executes_in_id_order.2.2.1 [⟨none, true, 8⟩, ⟨none, true, 9⟩]
    ⟨0, by decide⟩ ⟨1, by decide⟩ (by decide) (by decide)

theorem lookupF_eq_none (fs : List (PKey × Val)) (k : PKey)
    (h : fs.any (fun p => p.1 == k) = false) : lookupF fs k = none := by
  simp only [lookupF]
  rw [show (List.find? (fun p => p.1 == k) fs).map Prod.snd = none ↔
      List.find? (fun p => p.1 == k) fs = none by
    cases List.find? (fun p => p.1 == k) fs <;> simp]
  rw [List.find?_eq_none]
  intro x hx hpx
  rw [List.any_eq_false] at h
  exact h x hx hpx

/-- A key the setter classifies as absent reads `undefined` from the raw
target. -/
theorem getVal_of_not_hadKey (t : RTarget) (k : PKey) (h : hadKeyT t k = false) :
    getVal t k = .prim .undef := by
  cases t with
  | record fs =>
    have hfind := lookupF_eq_none fs k (by simpa [hadKeyT, hasOwnT] using h)
    simp [getVal, hfind]
  | arr es fs =>
    cases k with
    | i n =>
      simp only [hadKeyT, decide_eq_false_iff_not, not_lt] at h
      simp only [getVal]
      exact List.getD_eq_default _ _ h
    | s str =>
      by_cases hlen : str = "length"
      · subst hlen
        simp [hadKeyT, hasOwnT] at h
      · have hfind := lookupF_eq_none fs (.s str)
          (by simpa [hadKeyT, hasOwnT, hlen] using h)
        simp [getVal, hlen, hfind]

/-- **C5.** For a write through the (non-shallow) reactive wrapper:
a `set` notification is emitted only when the write target is the object's own
identity (`target === toRaw(receiver)`), the key already existed, and the new
value differs from the old one under the `Object.is`-style equality that
treats `NaN` as equal to `NaN` — and then it carries exactly this key and
value; writing a same value (`NaN` over `NaN` included) to an existing key
emits no notification at all (zero re-runs), and writing to an absent key
classifies the operation as `add` instead of `set`. -/
theorem setter_notifications (t : RTarget) (k : PKey) (v : Val) (ris : Bool) :
    (∀ k' nv, (createSetter false t k v ris).notif = some (TriggerOp.set, k', nv) →
      ris = true ∧ hadKeyT t k = true ∧ hasChanged v (getVal t k) = true ∧
      k' = k ∧ nv = v) ∧
    (hadKeyT t k = true → valIs v (getVal t k) = true →
      (createSetter false t k v ris).notif = none ∧
      (createSetter false t k v ris).ok = true) ∧
    (hadKeyT t k = false → ris = true →
      (createSetter false t k v ris).notif = some (TriggerOp.add, k, v) ∧
      (createSetter false t k v ris).ok = true) := by
  refine ⟨?_, ?_, ?_⟩
  · intro k' nv hnotif
    by_cases g1 : (isReadonlyV (getVal t k) && isRefV (getVal t k) && !isRefV v) = true
    · simp [createSetter, g1] at hnotif
    · by_cases g2 : (!isReadonlyV v && !isArrT t && isRefV (getVal t k) && !isRefV v) = true
      · simp [createSetter, g1, g2] at hnotif
      · by_cases hris : ris = true
        · by_cases hkey : hadKeyT t k = true
          · by_cases hch : hasChanged v (getVal t k) = true
            · simp [createSetter, g1, g2, hris, hkey, hch] at hnotif
              exact ⟨hris, hkey, hch, hnotif.1.symm, hnotif.2.symm⟩
            · simp [createSetter, g1, g2, hris, hkey, hch] at hnotif
          · simp [createSetter, g1, g2, hris, hkey] at hnotif
        · simp [createSetter, g1, g2, hris] at hnotif
  · intro hkey hsame
    by_cases hrefold : isRefV (getVal t k) = true
    · have hrefv : isRefV v = true := by
        cases v with
        | ref i ro c => rfl
        | prim p =>
          exfalso
          cases hgv : getVal t k with
          | prim q => rw [hgv] at hrefold; simp [isRefV] at hrefold
          | ref j ro c => rw [hgv] at hsame; simp [valIs] at hsame
      by_cases hris : ris = true <;>
        simp [createSetter, hrefold, hrefv, hkey, hasChanged, hsame, hris]
    · by_cases hris : ris = true <;>
        simp [createSetter, hrefold, hkey, hasChanged, hsame, hris]
  · intro hnk hris
    have hold := getVal_of_not_hadKey t k hnk
    simp [createSetter, hold, isReadonlyV, isRefV, hris, hnk]

/-- Witness for `setter_notifications`: a `NaN`-over-`NaN` write to an
existing key emits nothing; a write to an absent key emits `add`. -/
theorem setter_notifications_witness :
    ((createSetter false (RTarget.record [(PKey.s "x", Val.prim Prim.nan)]) (PKey.s "x")
        (Val.prim Prim.nan) true).notif = none) ∧
    ((createSetter false (RTarget.record []) (PKey.s "y") (Val.prim (Prim.num 5))
        true).notif = some (TriggerOp.add, PKey.s "y", Val.prim (Prim.num 5))) := by
  refine ⟨?_, ?_⟩
  · exact ((setter_notifications (RTarget.record [(PKey.s "x", Val.prim Prim.nan)])
      (PKey.s "x") (Val.prim Prim.nan) true).2.1 (by decide) (by decide)).1
  · exact ((setter_notifications (RTarget.record []) (PKey.s "y")
      (Val.prim (Prim.num 5)) true).2.2 (by decide) rfl).1

/-- **C9.** Writing or deleting through a read-only wrapper leaves the raw
object unchanged, reports success (the trap returns `true`), emits no trigger
notification, and emits no track event for the attempted write. -/
theorem readonly_write_delete_noop (t : RTarget) (k : PKey) (v : Val) :
    readonlySet t k v = ⟨true, t, none, []⟩ ∧
    readonlyDeleteProperty t k = ⟨true, t, none, []⟩ ∧
    (readonlySet t k v).target = t ∧
    (readonlySet t k v).ok = true ∧
    (readonlySet t k v).notif = none ∧
    (readonlySet t k v).tracks = [] ∧
    (readonlyDeleteProperty t k).target = t :=
  ⟨rfl, rfl, rfl, rfl, rfl, rfl, rfl⟩
